import Mathlib

/-!
Verification development for the `portman` graph-state mirror and
connection-control layer.

The Python source is shallowly embedded:

* JACK graph snapshot (`src/portman/jack.py`): Python's insertion-ordered
  `dict`s become association lists (`List (key × value)`); `d.setdefault`,
  `d[k] = v`, `d.pop(k, None)` become `setdefaultA`, insertion/`modifyA`,
  and key-removal (`popA`).  A port's `connections` dict (all values
  `None`) becomes the ordered list of its keys.
* The mirror callbacks `client_registration`, `port_registration`,
  `port_connect` become pure state transformers on the snapshot.
* `ConnectionTrack` / `Swap` / `Push` / `MultiConnectionTrack`
  (`src/portman/base.py`): composite tracks act on an abstract store of
  boolean track cells `Nat → Bool` (each cell's `get` reflects its last
  `set`); the leaf track's `set` is modelled by the list of calls it
  issues to the audio-server connection.
* The TUI keystroke loop body (`src/portman/tui.py`) becomes a step
  function that reports the calls it makes.
* The debounce thread (`graph_reordered_thread`) is modelled as a pure
  function from pulse timestamps to settle-callback firing times, under
  the idealised timing assumptions spelled out at its definition.
-/

namespace Portman

/-- `PortRef` named tuple from `src/portman/base.py`:
`(client_name, subclient_name, port_name)`, value equality. -/
structure PortRef where
  client_name : String
  subclient_name : String
  port_name : String
deriving DecidableEq, Repr

/-- First-match lookup in an association list (Python `d[k]` / `k in d`). -/
def lookupA {α β : Type} [DecidableEq α] (k : α) : List (α × β) → Option β
  | [] => none
  | (k', v) :: t => if k' = k then some v else lookupA k t

/-- Python `d.setdefault(k, d0)`: if `k` is absent, append `(k, d0)`
(insertion order: new keys go to the end); return the updated dict. -/
def setdefaultA {α β : Type} [DecidableEq α] (k : α) (d0 : β) (l : List (α × β)) :
    List (α × β) :=
  match lookupA k l with
  | some _ => l
  | none => l ++ [(k, d0)]

/-- In-place update of the value stored at key `k` (no-op when absent);
models mutating the dict entry obtained by lookup. -/
def modifyA {α β : Type} [DecidableEq α] (k : α) (f : β → β) : List (α × β) → List (α × β)
  | [] => []
  | (k', v) :: t => if k' = k then (k', f v) :: t else (k', v) :: modifyA k f t

/-- Python `d.pop(k, None)`: remove the key `k` (dict keys are unique, so
removal of every matching entry models it). -/
def popA {α β : Type} [DecidableEq α] (k : α) (l : List (α × β)) : List (α × β) :=
  l.filter (fun kv => !(decide (kv.1 = k)))

/-- A port's `connections` dict: the ordered list of connected `PortRef` keys. -/
abbrev PortConns := List PortRef

/-- A client's `ports` dict. -/
abbrev ClientRec := List (PortRef × PortConns)

/-- The graph snapshot `self.clients : Dict[str, Client]`. -/
abbrev Snapshot := List (String × ClientRec)

/-- Python `d[k] = None` on a connections dict: existing key keeps its
position (and its `None` value), a new key is appended. -/
def connInsert (r : PortRef) (l : PortConns) : PortConns :=
  if r ∈ l then l else l ++ [r]

/-- Python `d.pop(k, None)` on a connections dict. -/
def connPop (r : PortRef) (l : PortConns) : PortConns :=
  l.filter (fun x => !(decide (x = r)))

/-- The port record stored for `x`, if any: look up `x`'s client, then `x`
among its ports (`self.clients[x.client_name]["ports"][x]`). -/
def portOf (s : Snapshot) (x : PortRef) : Option PortConns :=
  (lookupA x.client_name s).bind (fun c => lookupA x c)

/-- The connection set recorded for `x` (empty when `x` is unknown). -/
def connsOf (s : Snapshot) (x : PortRef) : PortConns :=
  (portOf s x).getD []

/-- Whether port `x` is present in the snapshot. -/
def presentPort (s : Snapshot) (x : PortRef) : Bool :=
  (portOf s x).isSome

/-- Symmetry invariant of the mirror snapshot: every recorded connection
points at a present port and is recorded on both endpoints. -/
def SnapInv (s : Snapshot) : Prop :=
  ∀ x y : PortRef, y ∈ connsOf s x → presentPort s y = true ∧ x ∈ connsOf s y

/-- `client_registration` callback (`src/portman/jack.py` lines 51-56). -/
def client_registration (name : String) (register : Bool) (s : Snapshot) : Snapshot :=
  if register then setdefaultA name [] s else popA name s

/-- `port_registration` callback (`src/portman/jack.py` lines 58-65):
`setdefault` the owning client, then insert or pop the port record. -/
def port_registration (ref : PortRef) (register : Bool) (s : Snapshot) : Snapshot :=
  let s1 := setdefaultA ref.client_name [] s
  if register then modifyA ref.client_name (fun ports => setdefaultA ref [] ports) s1
  else modifyA ref.client_name (fun ports => popA ref ports) s1

/-- `port_connect` callback (`src/portman/jack.py` lines 67-86):
`setdefault` both clients, look both ports up; on a missing port, print
and return (the `setdefault`ed snapshot stands); otherwise mutate `b`'s
connections then `a`'s, inserting on connect and popping on disconnect. -/
def port_connect (a b : PortRef) (conn : Bool) (s : Snapshot) : Snapshot :=
  let s1 := setdefaultA b.client_name [] (setdefaultA a.client_name [] s)
  match portOf s1 a, portOf s1 b with
  | some _, some _ =>
    if conn then
      modifyA a.client_name (modifyA a (connInsert b))
        (modifyA b.client_name (modifyA b (connInsert a)) s1)
    else
      modifyA a.client_name (modifyA a (connPop b))
        (modifyA b.client_name (modifyA b (connPop a)) s1)
  | _, _ => s1

/-- A mirror event, as delivered by the JACK callbacks. -/
inductive Event
  | clientReg (name : String) (register : Bool)
  | portReg (ref : PortRef) (register : Bool)
  | portConnect (a b : PortRef) (conn : Bool)
deriving DecidableEq, Repr

/-- Apply one mirror event to the snapshot. -/
def applyEvent (e : Event) (s : Snapshot) : Snapshot :=
  match e with
  | .clientReg n r => client_registration n r s
  | .portReg ref r => port_registration ref r s
  | .portConnect a b c => port_connect a b c s

/-- Apply a sequence of mirror events in order. -/
def applyEvents : List Event → Snapshot → Snapshot
  | [], s => s
  | e :: t, s => applyEvents t (applyEvent e s)

/-- An event that performs no client or port unregistration. -/
def regOnly : Event → Bool
  | .clientReg _ r => r
  | .portReg _ r => r
  | .portConnect _ _ _ => true

/-- Sequential writes of values to track cells, in order (Python
`for v, t in zip(vals, tracks): t.set(v)`; `zip` truncates to the
shorter list). -/
def setAll (σ : Nat → Bool) : List Nat → List Bool → (Nat → Bool)
  | t :: ts, v :: vs => setAll (Function.update σ t v) ts vs
  | _, _ => σ

/-- Elements at even indices: Python `tracks[::2]`. -/
def sliceEvens {α : Type} : List α → List α
  | [] => []
  | [x] => [x]
  | x :: _ :: r => x :: sliceEvens r

/-- Elements at odd indices: Python `tracks[1::2]`. -/
def sliceOdds {α : Type} : List α → List α
  | [] => []
  | [_] => []
  | _ :: y :: r => y :: sliceOdds r

/-- `Swap.__init__` (`src/portman/base.py` lines 63-68): assert the track
count is even (an assertion failure is `none`), then split into the two
interleaved bundles `a = tracks[::2]`, `b = tracks[1::2]`. -/
def mkSwap (tracks : List Nat) : Option (List Nat × List Nat) :=
  if tracks.length % 2 = 0 then some (sliceEvens tracks, sliceOdds tracks) else none

/-- `Push.__init__` (`src/portman/base.py` lines 88-93): same evenness
assertion; `froms = tracks[::2]`, `tos = tracks[1::2]`. -/
def mkPush (tracks : List Nat) : Option (List Nat × List Nat) :=
  if tracks.length % 2 = 0 then some (sliceEvens tracks, sliceOdds tracks) else none

/-- `MultiConnectionTrack.__init__` (`src/portman/base.py` lines 143-145):
stores the tracks with no arity check whatsoever. -/
def mkMultiConnectionTrack (tracks : List Nat) : Option (List Nat) :=
  some tracks

/-- `Swap.set` (`src/portman/base.py` lines 75-82): read both bundles'
states first, then write `a`'s old states onto `b`'s tracks and `b`'s old
states onto `a`'s tracks; the boolean argument is ignored. -/
def swapSet (A B : List Nat) (_v : Bool) (σ : Nat → Bool) : Nat → Bool :=
  let a_s := A.map σ
  let b_s := B.map σ
  setAll (setAll σ B a_s) A b_s

/-- `Push.set` (`src/portman/base.py` lines 100-107): read the `froms`
states, then write them onto the `tos` tracks; the boolean argument is
ignored and `froms` is never written. -/
def pushSet (froms tos : List Nat) (_v : Bool) (σ : Nat → Bool) : Nat → Bool :=
  let vals := froms.map σ
  setAll σ tos vals

/-- A `ConnectionTrack` object: the held `PortMan` mirror reference
(modelled by its object identity, a `Nat` id) plus the two port refs. -/
structure CTrack where
  pm : Nat
  a : PortRef
  b : PortRef
deriving DecidableEq, Repr

/-- `SimpleEqMixin.__eq__` (`src/portman/base.py` lines 51-53) on a
`ConnectionTrack`: same class and equal `__dict__`; the `pm` attribute is
a `PortMan` instance, which has no `__eq__` of its own, so it compares by
object identity, while `a` and `b` compare by named-tuple value. -/
def simpleEqCT (t u : CTrack) : Bool :=
  decide (t.pm = u.pm) && decide (t.a = u.a) && decide (t.b = u.b)

/-- `ConnectionTrack.get` (`src/portman/base.py` lines 119-122):
`self.b in a_port["connections"]` (meaningful when port `a` is present). -/
def ctGet (s : Snapshot) (a b : PortRef) : Bool :=
  decide (b ∈ connsOf s a)

/-- The `subclient:port` name string handed to the JACK connect calls. -/
def portName (p : PortRef) : String :=
  p.subclient_name ++ ":" ++ p.port_name

/-- A call issued to the audio-server connection object. -/
inductive JackCall
  | connect (a b : String)
  | disconnect (a b : String)
deriving DecidableEq, Repr

/-- `ConnectionTrack.set` (`src/portman/base.py` lines 124-130), as the
list of calls it issues: connect when asked on and not connected,
disconnect when asked off and connected, otherwise nothing. -/
def ctSet (s : Snapshot) (a b : PortRef) (v : Bool) : List JackCall :=
  if v && !(ctGet s a b) then [JackCall.connect (portName a) (portName b)]
  else if !v && ctGet s a b then [JackCall.disconnect (portName a) (portName b)]
  else []

/-- A call made by one iteration of the TUI keystroke loop. -/
inductive UiCall
  | setTrack (t : Nat) (v : Bool)
  | statusUpdate
deriving DecidableEq, Repr

/-- One iteration of the keystroke loop body (`src/portman/tui.py` lines
81-86): case-fold the character with `.upper()`; when it matches a bound
key, call `track.set(not track.get())`; always run `update_the_status()`
afterwards.  Returns the new track store and the calls made. -/
def dispatchChar (keys : List (Char × Nat)) (σ : Nat → Bool) (c : Char) :
    (Nat → Bool) × List UiCall :=
  match lookupA c.toUpper keys with
  | some t => (Function.update σ t (!σ t), [UiCall.setTrack t (!σ t), UiCall.statusUpdate])
  | none => (σ, [UiCall.statusUpdate])

/-- Helper for `fireTimes`: the debouncer is in its settling phase with
the last pulse seen at time `last`; each `graph_reordered.wait(W)` that
sees another pulse strictly within the window re-arms, and a window that
expires quietly fires the settle callbacks at `last + W`. -/
def fireTimesGo (W : Nat) (last : Nat) : List Nat → List Nat
  | [] => [last + W]
  | q :: qs => if q < last + W then fireTimesGo W q qs else (last + W) :: fireTimesGo W q qs

/-- Settle-callback firing times of `graph_reordered_thread`
(`src/portman/jack.py` lines 99-116) on a strictly increasing list of
pulse timestamps, under an idealised timing model: callbacks run
instantly, `event.wait(W)` returns true exactly when the next pulse
arrives strictly within `W` of the previous one, and each fired burst
ends at its last pulse plus the settle window `W`. -/
def fireTimes (W : Nat) : List Nat → List Nat
  | [] => []
  | p :: ps => fireTimesGo W p ps

end Portman

namespace Portman

theorem lookupA_append {α β : Type} [DecidableEq α] (k : α) (l m : List (α × β)) :
    lookupA k (l ++ m) = match lookupA k l with
      | some v => some v
      | none => lookupA k m := by
  induction l with
  | nil => simp [lookupA]
  | cons kv t ih =>
    obtain ⟨k', v⟩ := kv
    by_cases h : k' = k <;> simp [lookupA, h, ih]

theorem lookupA_modifyA {α β : Type} [DecidableEq α] (k k' : α) (f : β → β)
    (l : List (α × β)) :
    lookupA k (modifyA k' f l) =
      if k = k' then (lookupA k l).map f else lookupA k l := by
  induction l with
  | nil => by_cases h : k = k' <;> simp [lookupA, modifyA, h]
  | cons kv t ih =>
    obtain ⟨k1, v⟩ := kv
    by_cases h1 : k1 = k'
    · subst h1
      by_cases h2 : k1 = k
      · subst h2; simp [lookupA, modifyA]
      · simp [lookupA, modifyA, h2, Ne.symm h2, ih]
    · by_cases h2 : k1 = k
      · subst h2
        simp [lookupA, modifyA, h1]
      · simp [lookupA, modifyA, h1, h2, ih]

theorem setdefaultA_of_some {α β : Type} [DecidableEq α] (k : α) (d0 : β)
    (l : List (α × β)) (h : (lookupA k l).isSome) : setdefaultA k d0 l = l := by
  unfold setdefaultA
  cases hv : lookupA k l with
  | some v => rfl
  | none => rw [hv] at h; simp at h

theorem lookupA_setdefaultA {α β : Type} [DecidableEq α] (k k' : α) (d0 : β)
    (l : List (α × β)) :
    lookupA k (setdefaultA k' d0 l) =
      match lookupA k' l with
      | some _ => lookupA k l
      | none => match lookupA k l with
        | some v => some v
        | none => if k = k' then some d0 else none := by
  unfold setdefaultA
  cases hv : lookupA k' l with
  | some v => rfl
  | none =>
    rw [lookupA_append]
    cases hk : lookupA k l with
    | some w => rfl
    | none => simp [lookupA, eq_comm]

end Portman

namespace Portman

theorem portOf_setdefaultClient (n : String) (s : Snapshot) (x : PortRef) :
    portOf (setdefaultA n [] s) x = portOf s x := by
  unfold portOf
  rw [lookupA_setdefaultA]
  cases hn : lookupA n s with
  | some c => rfl
  | none =>
    cases hx : lookupA x.client_name s with
    | some c => rfl
    | none =>
      by_cases h : x.client_name = n <;> simp [h, lookupA]

theorem portOf_modify (r : PortRef) (f : PortConns → PortConns) (s : Snapshot)
    (x : PortRef) :
    portOf (modifyA r.client_name (modifyA r f) s) x =
      if x = r then (portOf s x).map f else portOf s x := by
  unfold portOf
  rw [lookupA_modifyA]
  by_cases hc : x.client_name = r.client_name
  · rw [if_pos hc]
    cases ho : lookupA x.client_name s with
    | none => by_cases hx : x = r <;> simp [hx]
    | some c =>
      by_cases hx : x = r
      · subst hx; simp [lookupA_modifyA]
      · simp [lookupA_modifyA, hx]
  · have hx : ¬ x = r := fun h => hc (by rw [h])
    rw [if_neg hc, if_neg hx]

theorem setAll_not_mem (ts : List Nat) (vs : List Bool) (σ : Nat → Bool) (x : Nat)
    (h : x ∉ ts) : setAll σ ts vs x = σ x := by
  induction ts generalizing σ vs with
  | nil => cases vs <;> rfl
  | cons t ts ih =>
    cases vs with
    | nil => rfl
    | cons v vs =>
      have hx : x ≠ t := fun he => h (he ▸ List.mem_cons_self t ts)
      have hmem : x ∉ ts := fun hm => h (List.mem_cons_of_mem t hm)
      rw [setAll, ih _ _ hmem, Function.update_noteq hx]

theorem setAll_get (ts : List Nat) (vs : List Bool) (σ : Nat → Bool) (i : Nat)
    (h1 : i < ts.length) (h2 : i < vs.length) (hnd : ts.Nodup) :
    setAll σ ts vs (ts.get ⟨i, h1⟩) = vs.get ⟨i, h2⟩ := by
  induction ts generalizing σ vs i with
  | nil => exact absurd h1 (Nat.not_lt_zero i)
  | cons t ts ih =>
    cases vs with
    | nil => exact absurd h2 (Nat.not_lt_zero i)
    | cons v vs =>
      obtain ⟨hni, hnd'⟩ := List.nodup_cons.mp hnd
      cases i with
      | zero =>
        show setAll (Function.update σ t v) ts vs t = v
        rw [setAll_not_mem _ _ _ _ hni, Function.update_same]
      | succ j =>
        exact ih vs (Function.update σ t v) j (Nat.lt_of_succ_lt_succ h1)
          (Nat.lt_of_succ_lt_succ h2) hnd'

end Portman

namespace Portman

theorem sliceEvens_length {α : Type} (l : List α) :
    (sliceEvens l).length = (l.length + 1) / 2 := by
  induction l using sliceEvens.induct with
  | case1 => simp [sliceEvens]
  | case2 x => simp [sliceEvens]
  | case3 x y r ih => simp only [sliceEvens, List.length_cons, ih]; omega

theorem sliceOdds_length {α : Type} (l : List α) :
    (sliceOdds l).length = l.length / 2 := by
  induction l using sliceOdds.induct with
  | case1 => simp [sliceOdds]
  | case2 x => simp [sliceOdds]
  | case3 x y r ih => simp only [sliceOdds, List.length_cons, ih]; omega

/-- C1: `Swap.set` is a true exchange independent of its boolean argument:
over two equal-length bundles `A` and `B` of pairwise-distinct track
cells, after `set` each member of `B` reads `A`'s corresponding pre-call
state and each member of `A` reads `B`'s corresponding pre-call state,
whatever boolean `v` was passed. -/
theorem swap_set_exchanges (A B : List Nat) (σ : Nat → Bool) (v : Bool)
    (hlen : A.length = B.length) (hnd : (A ++ B).Nodup) :
    ∀ i (hA : i < A.length) (hB : i < B.length),
      swapSet A B v σ (B.get ⟨i, hB⟩) = σ (A.get ⟨i, hA⟩) ∧
      swapSet A B v σ (A.get ⟨i, hA⟩) = σ (B.get ⟨i, hB⟩) := by
  obtain ⟨hndA, hndB, hdisj⟩ := List.nodup_append.mp hnd
  intro i hA hB
  unfold swapSet
  constructor
  · have hBmem : B.get ⟨i, hB⟩ ∈ B := List.get_mem B i hB
    have hnotA : B.get ⟨i, hB⟩ ∉ A := fun hmem => hdisj hmem hBmem
    rw [setAll_not_mem _ _ _ _ hnotA]
    have h2 : i < (A.map σ).length := by simpa using hA
    rw [setAll_get B (A.map σ) σ i hB h2 hndB]
    simp [List.get_eq_getElem, List.getElem_map]
  · have h2 : i < (B.map σ).length := by simpa using hB
    rw [setAll_get A (B.map σ) _ i hA h2 hndA]
    simp [List.get_eq_getElem, List.getElem_map]

/-- Witness for C1 at `A = [0, 1]`, `B = [2, 3]` with cell 0 on. -/
theorem swap_set_exchanges_witness :
    swapSet [0, 1] [2, 3] true (fun i => decide (i = 0)) 2 = decide ((0 : Nat) = 0) ∧
    swapSet [0, 1] [2, 3] true (fun i => decide (i = 0)) 0 = decide ((2 : Nat) = 0) := by
  have h := swap_set_exchanges [0, 1] [2, 3] (fun i => decide (i = 0)) true
    (by decide) (by decide) 0 (by decide) (by decide)
  simpa using h

/-- C4: `Push.set` copies one-directionally: over equal-length bundles of
pairwise-distinct track cells, after `set` each `to` member reads the
corresponding `from` member's pre-call state and every `from` member is
unchanged, whatever boolean was passed. -/
theorem push_set_copies (froms tos : List Nat) (σ : Nat → Bool) (v : Bool)
    (hlen : froms.length = tos.length) (hnd : (froms ++ tos).Nodup) :
    (∀ i (hf : i < froms.length) (ht : i < tos.length),
      pushSet froms tos v σ (tos.get ⟨i, ht⟩) = σ (froms.get ⟨i, hf⟩)) ∧
    (∀ x ∈ froms, pushSet froms tos v σ x = σ x) := by
  obtain ⟨hndF, hndT, hdisj⟩ := List.nodup_append.mp hnd
  constructor
  · intro i hf ht
    unfold pushSet
    have h2 : i < (froms.map σ).length := by simpa using hf
    rw [setAll_get tos (froms.map σ) σ i ht h2 hndT]
    simp [List.get_eq_getElem, List.getElem_map]
  · intro x hx
    unfold pushSet
    exact setAll_not_mem _ _ _ _ (fun hmem => hdisj hx hmem)

/-- Witness for C4 at `froms = [1]` on, `tos = [2]` off. -/
theorem push_set_copies_witness :
    pushSet [1] [2] false (fun i => decide (i = 1)) 2 = decide ((1 : Nat) = 1) ∧
    pushSet [1] [2] false (fun i => decide (i = 1)) 1 = decide ((1 : Nat) = 1) := by
  have h := push_set_copies [1] [2] (fun i => decide (i = 1)) false (by decide) (by decide)
  exact ⟨by simpa using h.1 0 (by decide) (by decide), by simpa using h.2 1 (by decide)⟩

/-- C6 counterexample: the claim says a non-positive track count fails at
construction, but zero tracks are accepted by `Swap`, `Push` (the evenness
assertion passes on 0) and by `MultiConnectionTrack` (no check at all). -/
theorem track_arity_cex :
    (mkSwap []).isSome = true ∧ (mkPush []).isSome = true ∧
    (mkMultiConnectionTrack []).isSome = true := by
  decide

/-- C6 amended: `Swap`/`Push` construction succeeds exactly when the track
count is even (including zero; odd counts fail the assertion immediately),
the two resulting bundles pair 1:1 (equal lengths), and
`MultiConnectionTrack` construction performs no arity check and always
succeeds. -/
theorem track_arity_validation (tracks : List Nat) :
    ((mkSwap tracks).isSome = true ↔ tracks.length % 2 = 0) ∧
    ((mkPush tracks).isSome = true ↔ tracks.length % 2 = 0) ∧
    (mkMultiConnectionTrack tracks).isSome = true ∧
    (∀ A B, mkSwap tracks = some (A, B) → A.length = B.length) := by
  refine ⟨?_, ?_, rfl, ?_⟩
  · unfold mkSwap; by_cases h : tracks.length % 2 = 0 <;> simp [h]
  · unfold mkPush; by_cases h : tracks.length % 2 = 0 <;> simp [h]
  · intro A B h
    unfold mkSwap at h
    by_cases he : tracks.length % 2 = 0
    · rw [if_pos he] at h
      obtain ⟨hA, hB⟩ := Prod.mk.injEq .. ▸ Option.some.inj h
      rw [← hA, ← hB, sliceEvens_length, sliceOdds_length]
      omega
    · rw [if_neg he] at h
      exact absurd h (by simp)

/-- Witness for C6 amended at a two-track list. -/
theorem track_arity_validation_witness :
    (mkSwap [0, 1]).isSome = true ∧ (mkPush [0, 1]).isSome = true ∧
    (mkMultiConnectionTrack [0, 1]).isSome = true ∧
    ([0] : List Nat).length = ([1] : List Nat).length := by
  have h := track_arity_validation [0, 1]
  exact ⟨h.1.mpr (by decide), h.2.1.mpr (by decide), h.2.2.1,
    h.2.2.2 [0] [1] (by decide)⟩

/-- C8 counterexample: two Leaf tracks built over equal port pairs but
holding different mirror instances do not compare equal — the held mirror
reference does participate in `SimpleEqMixin` equality. -/
theorem leaf_eq_mirror_cex :
    simpleEqCT ⟨0, ⟨"X", "x", "p"⟩, ⟨"Y", "y", "q"⟩⟩
      ⟨1, ⟨"X", "x", "p"⟩, ⟨"Y", "y", "q"⟩⟩ = false := by
  decide

/-- C8 amended: Leaf-track equality is full structural equality over the
whole attribute dict, the held mirror reference (compared by object
identity) included: two tracks are equal iff they hold the same mirror
instance and equal port pairs. -/
theorem leaf_eq_structural (t u : CTrack) :
    simpleEqCT t u = true ↔ t = u := by
  unfold simpleEqCT
  constructor
  · intro h
    simp only [Bool.and_eq_true, decide_eq_true_eq] at h
    obtain ⟨⟨h1, h2⟩, h3⟩ := h
    cases t; cases u; simp_all
  · intro h
    subst h
    simp

/-- C9: keystroke dispatch case-folds the character with `.upper()`; on a
bound key it calls `track.set(not track.get())` (toggling the cell), on an
unbound key it changes nothing, and in both cases the status
update/rebuild runs afterwards (it is the last call made). -/
theorem keystroke_dispatch (keys : List (Char × Nat)) (σ : Nat → Bool) (c : Char) :
    ((dispatchChar keys σ c).2.getLast? = some UiCall.statusUpdate) ∧
    (∀ t, lookupA c.toUpper keys = some t →
      dispatchChar keys σ c =
        (Function.update σ t (!σ t), [UiCall.setTrack t (!σ t), UiCall.statusUpdate])) ∧
    (lookupA c.toUpper keys = none → dispatchChar keys σ c = (σ, [UiCall.statusUpdate])) := by
  unfold dispatchChar
  cases h : lookupA c.toUpper keys with
  | some t => simp
  | none => simp

/-- Witness for C9: key `A` bound to track 0, input `a`, all cells off. -/
theorem keystroke_dispatch_witness :
    dispatchChar [('A', 0)] (fun _ => false) 'a' =
      (Function.update (fun _ => false) 0 true, [UiCall.setTrack 0 true, UiCall.statusUpdate]) := by
  have h := keystroke_dispatch [('A', 0)] (fun _ => false) 'a'
  simpa using h.2.1 0 (by decide)

/-- C10: a Leaf track's `set` is effect-free when the requested state
already holds; it issues a connect call exactly when asked on while not
connected, and a disconnect call exactly when asked off while connected
(stated for a track whose port is present, so its `get` is defined). -/
theorem leaf_set_frame (s : Snapshot) (a b : PortRef) (v : Bool)
    (h : presentPort s a = true) :
    (ctGet s a b = v → ctSet s a b v = []) ∧
    (ctSet s a b v = [JackCall.connect (portName a) (portName b)] ↔
      v = true ∧ ctGet s a b = false) ∧
    (ctSet s a b v = [JackCall.disconnect (portName a) (portName b)] ↔
      v = false ∧ ctGet s a b = true) := by
  unfold ctSet
  cases v <;> cases hg : ctGet s a b <;> simp [hg]

/-- Witness for C10: a connected pair asked to connect again issues no call. -/
theorem leaf_set_frame_witness :
    ctSet [("X", [(⟨"X", "x", "p"⟩, [⟨"Y", "y", "q"⟩])])]
      ⟨"X", "x", "p"⟩ ⟨"Y", "y", "q"⟩ true = [] := by
  exact (leaf_set_frame [("X", [(⟨"X", "x", "p"⟩, [⟨"Y", "y", "q"⟩])])]
    ⟨"X", "x", "p"⟩ ⟨"Y", "y", "q"⟩ true (by decide)).1 (by decide)

/-- C3: debounce coalescing, in the idealised timing model of
`fireTimes`: a burst of pulses each strictly within the settle window `W`
of the previous one yields exactly one settle firing, at the last pulse
plus `W` (hence no earlier than `W` after the last pulse); two pulses
separated by more than `W` yield exactly two firings. -/
theorem debounce_coalesce (W : Nat) :
    (∀ p ps, List.Chain' (fun x y => y < x + W) (p :: ps) →
      fireTimes W (p :: ps) = [ps.getLastD p + W]) ∧
    (∀ p q : Nat, p + W < q → fireTimes W [p, q] = [p + W, q + W]) := by
  constructor
  · intro p ps
    induction ps generalizing p with
    | nil => intro _; rfl
    | cons q qs ih =>
      intro hch
      rw [List.chain'_cons] at hch
      obtain ⟨hpq, hch'⟩ := hch
      show fireTimesGo W p (q :: qs) = [(q :: qs).getLastD p + W]
      rw [List.getLastD_cons]
      have hrec := ih q hch'
      simp only [fireTimes] at hrec
      simp only [fireTimesGo, if_pos hpq, hrec]
  · intro p q h
    show fireTimesGo W p [q] = [p + W, q + W]
    have hn : ¬ q < p + W := Nat.not_lt.mpr (Nat.le_of_lt h)
    simp only [fireTimesGo, if_neg hn]

/-- Witness for C3: window 5, burst `[0, 3, 6]` fires once at 11; pulses
`[0, 10]` fire twice, at 5 and 15. -/
theorem debounce_coalesce_witness :
    fireTimes 5 [0, 3, 6] = [11] ∧ fireTimes 5 [0, 10] = [5, 15] := by
  have h := debounce_coalesce 5
  exact ⟨by simpa using h.1 0 [3, 6] (by simp [List.chain'_cons]), h.2 0 10 (by decide)⟩

end Portman

namespace Portman

theorem presentPort_client (s : Snapshot) (x : PortRef) (h : presentPort s x = true) :
    (lookupA x.client_name s).isSome = true := by
  unfold presentPort portOf at h
  cases hc : lookupA x.client_name s with
  | some c => rfl
  | none => rw [hc] at h; simp at h

theorem modifyA_congr_id {α β : Type} [DecidableEq α] (k : α) (f : β → β)
    (l : List (α × β)) (h : ∀ v, lookupA k l = some v → f v = v) :
    modifyA k f l = l := by
  induction l with
  | nil => rfl
  | cons kv t ih =>
    obtain ⟨k1, v⟩ := kv
    by_cases hk : k1 = k
    · subst hk
      have hv : f v = v := h v (by simp [lookupA])
      simp [modifyA, hv]
    · have ht : ∀ w, lookupA k t = some w → f w = w := by
        intro w hw
        exact h w (by simp [lookupA, hk, hw])
      simp [modifyA, hk, ih ht]

theorem snapshot_modify_noop (r : PortRef) (f : PortConns → PortConns) (s : Snapshot)
    (h : ∀ l, portOf s r = some l → f l = l) :
    modifyA r.client_name (modifyA r f) s = s := by
  apply modifyA_congr_id
  intro c hc
  apply modifyA_congr_id
  intro l hl
  apply h
  unfold portOf
  rw [hc]
  exact hl

theorem presentPort_modify (r : PortRef) (f : PortConns → PortConns) (s : Snapshot)
    (x : PortRef) :
    presentPort (modifyA r.client_name (modifyA r f) s) x = presentPort s x := by
  unfold presentPort
  rw [portOf_modify]
  by_cases h : x = r
  · subst h; cases portOf s x <;> simp
  · rw [if_neg h]

theorem mem_connInsert_self (r : PortRef) (l : PortConns) : r ∈ connInsert r l := by
  unfold connInsert
  by_cases h : r ∈ l <;> simp [h]

theorem connInsert_mono (x y : PortRef) (l : PortConns) (h : x ∈ l) :
    x ∈ connInsert y l := by
  unfold connInsert
  by_cases hy : y ∈ l <;> simp [hy, h]

theorem connInsert_of_mem (r : PortRef) (l : PortConns) (h : r ∈ l) :
    connInsert r l = l := by
  unfold connInsert
  rw [if_pos h]

theorem mem_connPop (x r : PortRef) (l : PortConns) :
    x ∈ connPop r l ↔ x ∈ l ∧ x ≠ r := by
  unfold connPop
  simp [List.mem_filter]

theorem connPop_of_not_mem (r : PortRef) (l : PortConns) (h : r ∉ l) :
    connPop r l = l := by
  unfold connPop
  apply List.filter_eq_self.mpr
  intro x hx
  simp only [Bool.not_eq_eq_eq_not, Bool.not_true, decide_eq_false_iff_not]
  exact fun he => h (he ▸ hx)

theorem not_mem_connPop_self (r : PortRef) (l : PortConns) : r ∉ connPop r l := by
  intro h
  exact ((mem_connPop r r l).mp h).2 rfl

/-- C5 counterexample: the claim says an unknown-port event leaves the
snapshot unchanged, but a connect event between ports of two unknown
clients inserts two empty client records via `setdefault` before the
port lookup fails. -/
theorem unknown_port_cex :
    port_connect ⟨"X", "x", "p"⟩ ⟨"Y", "y", "q"⟩ true [] ≠ ([] : Snapshot) := by
  decide

/-- C5 amended: when either referenced port is unknown, the connect or
disconnect handler returns normally and leaves every port record and
connection set unchanged, but it may first append empty client records
for the two referenced client names (it is not a strict no-op on the
snapshot). -/
theorem unknown_port_ignored (a b : PortRef) (c : Bool) (s : Snapshot)
    (h : ¬(presentPort s a = true ∧ presentPort s b = true)) :
    port_connect a b c s =
      setdefaultA b.client_name [] (setdefaultA a.client_name [] s) ∧
    (∀ x, portOf (port_connect a b c s) x = portOf s x) := by
  have hs1 : ∀ x, portOf (setdefaultA b.client_name [] (setdefaultA a.client_name [] s)) x
      = portOf s x := by
    intro x
    rw [portOf_setdefaultClient, portOf_setdefaultClient]
  have hmain : port_connect a b c s =
      setdefaultA b.client_name [] (setdefaultA a.client_name [] s) := by
    unfold port_connect
    cases ha : portOf (setdefaultA b.client_name [] (setdefaultA a.client_name [] s)) a with
    | none => simp [ha]
    | some pa =>
      cases hb : portOf (setdefaultA b.client_name [] (setdefaultA a.client_name [] s)) b with
      | none => simp [ha, hb]
      | some pb =>
        exfalso
        apply h
        constructor
        · unfold presentPort; rw [← hs1 a, ha]; rfl
        · unfold presentPort; rw [← hs1 b, hb]; rfl
  exact ⟨hmain, fun x => by rw [hmain, hs1 x]⟩

/-- Witness for C5: empty snapshot, connect between two unknown ports. -/
theorem unknown_port_ignored_witness :
    port_connect ⟨"X", "x", "p"⟩ ⟨"Y", "y", "q"⟩ true [] =
      setdefaultA "Y" [] (setdefaultA "X" [] ([] : Snapshot)) ∧
    portOf (port_connect ⟨"X", "x", "p"⟩ ⟨"Y", "y", "q"⟩ true []) ⟨"X", "x", "p"⟩ =
      portOf ([] : Snapshot) ⟨"X", "x", "p"⟩ := by
  have h := unknown_port_ignored ⟨"X", "x", "p"⟩ ⟨"Y", "y", "q"⟩ true [] (by decide)
  exact ⟨h.1, h.2 ⟨"X", "x", "p"⟩⟩

theorem port_connect_of_present (a b : PortRef) (c : Bool) (s : Snapshot)
    (ha : presentPort s a = true) (hb : presentPort s b = true) :
    port_connect a b c s =
      if c then
        modifyA a.client_name (modifyA a (connInsert b))
          (modifyA b.client_name (modifyA b (connInsert a)) s)
      else
        modifyA a.client_name (modifyA a (connPop b))
          (modifyA b.client_name (modifyA b (connPop a)) s) := by
  have h1 : setdefaultA a.client_name [] s = s :=
    setdefaultA_of_some _ _ _ (presentPort_client s a ha)
  have h2 : setdefaultA b.client_name [] s = s :=
    setdefaultA_of_some _ _ _ (presentPort_client s b hb)
  obtain ⟨pa, hpa⟩ := Option.isSome_iff_exists.mp ha
  obtain ⟨pb, hpb⟩ := Option.isSome_iff_exists.mp hb
  unfold port_connect
  simp only [h1, h2, hpa, hpb]

end Portman

namespace Portman

theorem port_connect_true_self_noop (a b : PortRef) (s' : Snapshot)
    (ha : ∃ la, portOf s' a = some la ∧ b ∈ la)
    (hb : ∃ lb, portOf s' b = some lb ∧ a ∈ lb) :
    port_connect a b true s' = s' := by
  obtain ⟨la, hla, hbla⟩ := ha
  obtain ⟨lb, hlb, halb⟩ := hb
  have hpa : presentPort s' a = true := by unfold presentPort; rw [hla]; rfl
  have hpb : presentPort s' b = true := by unfold presentPort; rw [hlb]; rfl
  rw [port_connect_of_present a b true s' hpa hpb, if_pos rfl]
  have h1 : modifyA b.client_name (modifyA b (connInsert a)) s' = s' := by
    apply snapshot_modify_noop
    intro l hl
    rw [hlb] at hl
    have he := Option.some.inj hl
    subst he
    exact connInsert_of_mem _ _ halb
  rw [h1]
  apply snapshot_modify_noop
  intro l hl
  rw [hla] at hl
  have he := Option.some.inj hl
  subst he
  exact connInsert_of_mem _ _ hbla

theorem port_connect_false_self_noop (a b : PortRef) (s' : Snapshot)
    (ha : ∃ la, portOf s' a = some la ∧ b ∉ la)
    (hb : ∃ lb, portOf s' b = some lb ∧ a ∉ lb) :
    port_connect a b false s' = s' := by
  obtain ⟨la, hla, hbla⟩ := ha
  obtain ⟨lb, hlb, halb⟩ := hb
  have hpa : presentPort s' a = true := by unfold presentPort; rw [hla]; rfl
  have hpb : presentPort s' b = true := by unfold presentPort; rw [hlb]; rfl
  rw [port_connect_of_present a b false s' hpa hpb, if_neg Bool.false_ne_true]
  have h1 : modifyA b.client_name (modifyA b (connPop a)) s' = s' := by
    apply snapshot_modify_noop
    intro l hl
    rw [hlb] at hl
    have he := Option.some.inj hl
    subst he
    exact connPop_of_not_mem _ _ halb
  rw [h1]
  apply snapshot_modify_noop
  intro l hl
  rw [hla] at hl
  have he := Option.some.inj hl
  subst he
  exact connPop_of_not_mem _ _ hbla

/-- C7: idempotent event application: when both endpoints' ports are
known, applying the same connect event (or the same disconnect event)
twice in a row yields a snapshot identical to applying it once. -/
theorem port_connect_idem (a b : PortRef) (c : Bool) (s : Snapshot)
    (ha : presentPort s a = true) (hb : presentPort s b = true) :
    port_connect a b c (port_connect a b c s) = port_connect a b c s := by
  obtain ⟨pa, hpa⟩ := Option.isSome_iff_exists.mp ha
  obtain ⟨pb, hpb⟩ := Option.isSome_iff_exists.mp hb
  cases c with
  | true =>
    rw [port_connect_of_present a b true s ha hb, if_pos rfl]
    have hTa : ∃ l0, portOf (modifyA b.client_name (modifyA b (connInsert a)) s) a
        = some l0 := by
      rw [portOf_modify]
      by_cases hab : a = b
      · rw [if_pos hab, hpa]; exact ⟨connInsert a pa, rfl⟩
      · rw [if_neg hab]; exact ⟨pa, hpa⟩
    obtain ⟨l0, hl0⟩ := hTa
    have hTb : portOf (modifyA b.client_name (modifyA b (connInsert a)) s) b
        = some (connInsert a pb) := by
      rw [portOf_modify, if_pos rfl, hpb]; rfl
    apply port_connect_true_self_noop
    · refine ⟨connInsert b l0, ?_, mem_connInsert_self b l0⟩
      rw [portOf_modify, if_pos rfl, hl0]; rfl
    · rw [portOf_modify]
      by_cases hba : b = a
      · rw [if_pos hba, hTb]
        exact ⟨connInsert b (connInsert a pb), rfl,
          connInsert_mono _ _ _ (mem_connInsert_self a pb)⟩
      · rw [if_neg hba, hTb]
        exact ⟨connInsert a pb, rfl, mem_connInsert_self a pb⟩
  | false =>
    rw [port_connect_of_present a b false s ha hb, if_neg Bool.false_ne_true]
    have hTa : ∃ l0, portOf (modifyA b.client_name (modifyA b (connPop a)) s) a
        = some l0 := by
      rw [portOf_modify]
      by_cases hab : a = b
      · rw [if_pos hab, hpa]; exact ⟨connPop a pa, rfl⟩
      · rw [if_neg hab]; exact ⟨pa, hpa⟩
    obtain ⟨l0, hl0⟩ := hTa
    have hTb : portOf (modifyA b.client_name (modifyA b (connPop a)) s) b
        = some (connPop a pb) := by
      rw [portOf_modify, if_pos rfl, hpb]; rfl
    apply port_connect_false_self_noop
    · refine ⟨connPop b l0, ?_, not_mem_connPop_self b l0⟩
      rw [portOf_modify, if_pos rfl, hl0]; rfl
    · rw [portOf_modify]
      by_cases hba : b = a
      · rw [if_pos hba, hTb]
        refine ⟨connPop b (connPop a pb), rfl, ?_⟩
        rw [hba]
        exact not_mem_connPop_self a (connPop a pb)
      · rw [if_neg hba, hTb]
        exact ⟨connPop a pb, rfl, not_mem_connPop_self a pb⟩

/-- Witness for C7: connect the two registered ports twice. -/
theorem port_connect_idem_witness :
    port_connect ⟨"X", "x", "p"⟩ ⟨"Y", "y", "q"⟩ true
        (port_connect ⟨"X", "x", "p"⟩ ⟨"Y", "y", "q"⟩ true
          [("X", [(⟨"X", "x", "p"⟩, [])]), ("Y", [(⟨"Y", "y", "q"⟩, [])])]) =
      port_connect ⟨"X", "x", "p"⟩ ⟨"Y", "y", "q"⟩ true
        [("X", [(⟨"X", "x", "p"⟩, [])]), ("Y", [(⟨"Y", "y", "q"⟩, [])])] := by
  exact port_connect_idem ⟨"X", "x", "p"⟩ ⟨"Y", "y", "q"⟩ true
    [("X", [(⟨"X", "x", "p"⟩, [])]), ("Y", [(⟨"Y", "y", "q"⟩, [])])]
    (by decide) (by decide)

end Portman

namespace Portman

theorem mem_connInsert_iff (x r : PortRef) (l : PortConns) :
    x ∈ connInsert r l ↔ x ∈ l ∨ x = r := by
  unfold connInsert
  by_cases h : r ∈ l
  · rw [if_pos h]
    exact ⟨Or.inl, fun hx => hx.elim id (fun he => he ▸ h)⟩
  · rw [if_neg h]
    simp

theorem snapInv_congr (s s' : Snapshot) (h : ∀ x, portOf s' x = portOf s x)
    (hinv : SnapInv s) : SnapInv s' := by
  intro x y hy
  have hc : ∀ z, connsOf s' z = connsOf s z := fun z => by unfold connsOf; rw [h z]
  rw [hc] at hy
  obtain ⟨h1, h2⟩ := hinv x y hy
  refine ⟨?_, by rw [hc]; exact h2⟩
  unfold presentPort
  rw [h y]
  exact h1

theorem mem_connsOf_connect (a b x y : PortRef) (s1 : Snapshot) (pa pb : PortConns)
    (hpa : portOf s1 a = some pa) (hpb : portOf s1 b = some pb) :
    (y ∈ connsOf (modifyA a.client_name (modifyA a (connInsert b))
        (modifyA b.client_name (modifyA b (connInsert a)) s1)) x
      ↔ y ∈ connsOf s1 x ∨ (x = a ∧ y = b) ∨ (x = b ∧ y = a)) := by
  unfold connsOf
  simp only [portOf_modify]
  by_cases hxa : x = a
  · subst hxa
    by_cases hxb : x = b
    · subst hxb
      have he : pa = pb := Option.some.inj (hpa ▸ hpb)
      subst he
      simp [hpa, mem_connInsert_iff]
    · rw [if_pos rfl, if_neg hxb, hpa]
      simp [mem_connInsert_iff, hxb]
  · by_cases hxb : x = b
    · subst hxb
      rw [if_neg hxa, if_pos rfl, hpb]
      simp [mem_connInsert_iff, hxa]
    · rw [if_neg hxa, if_neg hxb]
      simp [hxa, hxb]

theorem mem_connsOf_disconnect (a b x y : PortRef) (s1 : Snapshot) (pa pb : PortConns)
    (hpa : portOf s1 a = some pa) (hpb : portOf s1 b = some pb) :
    (y ∈ connsOf (modifyA a.client_name (modifyA a (connPop b))
        (modifyA b.client_name (modifyA b (connPop a)) s1)) x
      ↔ y ∈ connsOf s1 x ∧ ¬(x = a ∧ y = b) ∧ ¬(x = b ∧ y = a)) := by
  unfold connsOf
  simp only [portOf_modify]
  by_cases hxa : x = a
  · subst hxa
    by_cases hxb : x = b
    · subst hxb
      have he : pa = pb := Option.some.inj (hpa ▸ hpb)
      subst he
      simp [hpa, mem_connPop]
    · rw [if_pos rfl, if_neg hxb, hpa]
      simp [mem_connPop, hxb]
  · by_cases hxb : x = b
    · subst hxb
      rw [if_neg hxa, if_pos rfl, hpb]
      simp [mem_connPop, hxa]
    · rw [if_neg hxa, if_neg hxb]
      simp [hxa, hxb]

end Portman

namespace Portman

theorem snapInv_connect_core (a b : PortRef) (s1 : Snapshot) (hinv : SnapInv s1)
    (pa pb : PortConns) (hpa : portOf s1 a = some pa) (hpb : portOf s1 b = some pb) :
    SnapInv (modifyA a.client_name (modifyA a (connInsert b))
      (modifyA b.client_name (modifyA b (connInsert a)) s1)) := by
  intro x y hy
  have hpres : ∀ z, presentPort (modifyA a.client_name (modifyA a (connInsert b))
      (modifyA b.client_name (modifyA b (connInsert a)) s1)) z = presentPort s1 z := by
    intro z
    simp only [presentPort_modify]
  rw [mem_connsOf_connect a b x y s1 pa pb hpa hpb] at hy
  rcases hy with hy | ⟨hxa, hyb⟩ | ⟨hxb, hya⟩
  · obtain ⟨h1, h2⟩ := hinv x y hy
    exact ⟨by rw [hpres]; exact h1,
      (mem_connsOf_connect a b y x s1 pa pb hpa hpb).mpr (Or.inl h2)⟩
  · refine ⟨by rw [hpres, hyb]; unfold presentPort; rw [hpb]; rfl, ?_⟩
    rw [hxa, hyb]
    exact (mem_connsOf_connect a b b a s1 pa pb hpa hpb).mpr (Or.inr (Or.inr ⟨rfl, rfl⟩))
  · refine ⟨by rw [hpres, hya]; unfold presentPort; rw [hpa]; rfl, ?_⟩
    rw [hxb, hya]
    exact (mem_connsOf_connect a b a b s1 pa pb hpa hpb).mpr (Or.inr (Or.inl ⟨rfl, rfl⟩))

theorem snapInv_disconnect_core (a b : PortRef) (s1 : Snapshot) (hinv : SnapInv s1)
    (pa pb : PortConns) (hpa : portOf s1 a = some pa) (hpb : portOf s1 b = some pb) :
    SnapInv (modifyA a.client_name (modifyA a (connPop b))
      (modifyA b.client_name (modifyA b (connPop a)) s1)) := by
  intro x y hy
  have hpres : ∀ z, presentPort (modifyA a.client_name (modifyA a (connPop b))
      (modifyA b.client_name (modifyA b (connPop a)) s1)) z = presentPort s1 z := by
    intro z
    simp only [presentPort_modify]
  rw [mem_connsOf_disconnect a b x y s1 pa pb hpa hpb] at hy
  obtain ⟨hy1, hn1, hn2⟩ := hy
  obtain ⟨h1, h2⟩ := hinv x y hy1
  refine ⟨by rw [hpres]; exact h1,
    (mem_connsOf_disconnect a b y x s1 pa pb hpa hpb).mpr ⟨h2, ?_, ?_⟩⟩
  · rintro ⟨rfl, rfl⟩
    exact hn2 ⟨rfl, rfl⟩
  · rintro ⟨rfl, rfl⟩
    exact hn1 ⟨rfl, rfl⟩

theorem snapInv_port_connect (a b : PortRef) (c : Bool) (s : Snapshot)
    (h : SnapInv s) : SnapInv (port_connect a b c s) := by
  simp only [port_connect]
  generalize hS : setdefaultA b.client_name [] (setdefaultA a.client_name [] s) = S
  have hs1 : ∀ x, portOf S x = portOf s x := by
    intro x
    rw [← hS, portOf_setdefaultClient, portOf_setdefaultClient]
  have hinv1 : SnapInv S := snapInv_congr s S hs1 h
  cases hA : portOf S a with
  | none => simp only [hA]; exact hinv1
  | some pa =>
    cases hB : portOf S b with
    | none => simp only [hA, hB]; exact hinv1
    | some pb =>
      simp only [hA, hB]
      cases c with
      | true =>
        rw [if_pos rfl]
        exact snapInv_connect_core a b S hinv1 pa pb hA hB
      | false =>
        rw [if_neg Bool.false_ne_true]
        exact snapInv_disconnect_core a b S hinv1 pa pb hA hB

theorem portOf_portReg_true (ref : PortRef) (s : Snapshot) (x : PortRef) :
    portOf (port_registration ref true s) x =
      match portOf s x with
      | some v => some v
      | none => if x = ref then some [] else none := by
  show portOf (modifyA ref.client_name (fun ports => setdefaultA ref [] ports)
    (setdefaultA ref.client_name [] s)) x = _
  unfold portOf
  rw [lookupA_modifyA]
  by_cases hc : x.client_name = ref.client_name
  · rw [if_pos hc, hc, lookupA_setdefaultA]
    cases h0 : lookupA ref.client_name s with
    | some c =>
      simp only [h0, Option.map_some', Option.some_bind]
      rw [lookupA_setdefaultA]
      cases h1 : lookupA ref c with
      | some v =>
        cases h2 : lookupA x c with
        | some w => simp [h2]
        | none =>
          have hx : ¬ x = ref := by
            intro he
            rw [he, h1] at h2
            exact Option.noConfusion h2
          simp [h2, hx]
      | none =>
        cases h2 : lookupA x c with
        | some w => simp [h2]
        | none => simp [h2]
    | none =>
      by_cases hx : x = ref
      · simp [h0, hx, setdefaultA, lookupA]
      · have hx2 : ¬ ref = x := fun he => hx he.symm
        simp [h0, hx, hx2, setdefaultA, lookupA]
  · rw [if_neg hc, lookupA_setdefaultA]
    have hx : ¬ x = ref := by
      intro he
      exact hc (by rw [he])
    cases h0 : lookupA ref.client_name s with
    | some c =>
      cases h2 : lookupA x.client_name s with
      | some d =>
        cases h3 : lookupA x d with
        | some w => simp [h3]
        | none => simp [h3, hx]
      | none => simp [hx]
    | none =>
      cases h2 : lookupA x.client_name s with
      | some d =>
        simp only [h2]
        cases h3 : lookupA x d with
        | some w => simp [h3]
        | none => simp [h3, hx]
      | none => simp [h2, hc, hx]

end Portman

namespace Portman

theorem snapInv_portReg_true (ref : PortRef) (s : Snapshot) (h : SnapInv s) :
    SnapInv (port_registration ref true s) := by
  have hconns : ∀ z, connsOf (port_registration ref true s) z = connsOf s z := by
    intro z
    unfold connsOf
    rw [portOf_portReg_true]
    cases hz : portOf s z with
    | some v => rfl
    | none => by_cases hzr : z = ref <;> simp [hzr]
  have hpres : ∀ z, presentPort s z = true →
      presentPort (port_registration ref true s) z = true := by
    intro z hz
    unfold presentPort at hz ⊢
    rw [portOf_portReg_true]
    cases hpz : portOf s z with
    | some v => rfl
    | none => rw [hpz] at hz; simp at hz
  intro x y hy
  rw [hconns] at hy
  obtain ⟨h1, h2⟩ := h x y hy
  exact ⟨hpres y h1, by rw [hconns]; exact h2⟩

theorem snapInv_applyEvent (e : Event) (s : Snapshot) (he : regOnly e = true)
    (h : SnapInv s) : SnapInv (applyEvent e s) := by
  cases e with
  | clientReg n r =>
    cases r with
    | true =>
      show SnapInv (client_registration n true s)
      unfold client_registration
      rw [if_pos rfl]
      exact snapInv_congr s _ (fun x => portOf_setdefaultClient n s x) h
    | false => simp [regOnly] at he
  | portReg ref r =>
    cases r with
    | true => exact snapInv_portReg_true ref s h
    | false => simp [regOnly] at he
  | portConnect a b c => exact snapInv_port_connect a b c s h

theorem snapInv_empty : SnapInv [] := by
  intro x y hy
  simp [connsOf, portOf, lookupA] at hy

theorem snapInv_applyEvents (evs : List Event) (h : ∀ e ∈ evs, regOnly e = true) :
    SnapInv (applyEvents evs []) := by
  have gen : ∀ (l : List Event) (s : Snapshot), (∀ e ∈ l, regOnly e = true) →
      SnapInv s → SnapInv (applyEvents l s) := by
    intro l
    induction l with
    | nil => intro s _ hs; exact hs
    | cons e t ih =>
      intro s hl hs
      exact ih (applyEvent e s) (fun e' he' => hl e' (List.mem_cons_of_mem e he'))
        (snapInv_applyEvent e s (hl e (List.mem_cons_self e t)) hs)
  exact gen evs [] h snapInv_empty

/-- C2 counterexample: the claim quantifies over every event sequence, but
after registering ports `p`, `q`, connecting them, then unregistering and
re-registering `p`, the snapshot records `p` in `q`'s connection set while
`q` is absent from `p`'s (both ports being present) — the handlers never
scrub stale reverse entries on unregistration. -/
theorem snapshot_symmetry_cex :
    ((⟨"X", "x", "p"⟩ : PortRef) ∈ connsOf (applyEvents
        [Event.clientReg "X" true, Event.clientReg "Y" true,
         Event.portReg ⟨"X", "x", "p"⟩ true, Event.portReg ⟨"Y", "y", "q"⟩ true,
         Event.portConnect ⟨"X", "x", "p"⟩ ⟨"Y", "y", "q"⟩ true,
         Event.portReg ⟨"X", "x", "p"⟩ false, Event.portReg ⟨"X", "x", "p"⟩ true]
        []) ⟨"Y", "y", "q"⟩) ∧
    ((⟨"Y", "y", "q"⟩ : PortRef) ∉ connsOf (applyEvents
        [Event.clientReg "X" true, Event.clientReg "Y" true,
         Event.portReg ⟨"X", "x", "p"⟩ true, Event.portReg ⟨"Y", "y", "q"⟩ true,
         Event.portConnect ⟨"X", "x", "p"⟩ ⟨"Y", "y", "q"⟩ true,
         Event.portReg ⟨"X", "x", "p"⟩ false, Event.portReg ⟨"X", "x", "p"⟩ true]
        []) ⟨"X", "x", "p"⟩) ∧
    presentPort (applyEvents
        [Event.clientReg "X" true, Event.clientReg "Y" true,
         Event.portReg ⟨"X", "x", "p"⟩ true, Event.portReg ⟨"Y", "y", "q"⟩ true,
         Event.portConnect ⟨"X", "x", "p"⟩ ⟨"Y", "y", "q"⟩ true,
         Event.portReg ⟨"X", "x", "p"⟩ false, Event.portReg ⟨"X", "x", "p"⟩ true]
        []) ⟨"X", "x", "p"⟩ = true ∧
    presentPort (applyEvents
        [Event.clientReg "X" true, Event.clientReg "Y" true,
         Event.portReg ⟨"X", "x", "p"⟩ true, Event.portReg ⟨"Y", "y", "q"⟩ true,
         Event.portConnect ⟨"X", "x", "p"⟩ ⟨"Y", "y", "q"⟩ true,
         Event.portReg ⟨"X", "x", "p"⟩ false, Event.portReg ⟨"X", "x", "p"⟩ true]
        []) ⟨"Y", "y", "q"⟩ = true := by
  decide

/-- C2 amended: after any sequence of mirror events containing no client
or port unregistration, applied to the initially empty snapshot, the
connection record is symmetric: for all ports `x`, `y`, `y` is in `x`'s
connection set iff `x` is in `y`'s. -/
theorem snapshot_symmetry (evs : List Event) (h : ∀ e ∈ evs, regOnly e = true)
    (x y : PortRef) :
    y ∈ connsOf (applyEvents evs []) x ↔ x ∈ connsOf (applyEvents evs []) y := by
  have hinv := snapInv_applyEvents evs h
  exact ⟨fun hy => (hinv x y hy).2, fun hx => (hinv y x hx).2⟩

/-- Witness for C2 amended on a concrete registration-and-connect trace. -/
theorem snapshot_symmetry_witness :
    ((⟨"Y", "y", "q"⟩ : PortRef) ∈ connsOf (applyEvents
        [Event.clientReg "X" true, Event.clientReg "Y" true,
         Event.portReg ⟨"X", "x", "p"⟩ true, Event.portReg ⟨"Y", "y", "q"⟩ true,
         Event.portConnect ⟨"X", "x", "p"⟩ ⟨"Y", "y", "q"⟩ true]
        []) ⟨"X", "x", "p"⟩ ↔
     (⟨"X", "x", "p"⟩ : PortRef) ∈ connsOf (applyEvents
        [Event.clientReg "X" true, Event.clientReg "Y" true,
         Event.portReg ⟨"X", "x", "p"⟩ true, Event.portReg ⟨"Y", "y", "q"⟩ true,
         Event.portConnect ⟨"X", "x", "p"⟩ ⟨"Y", "y", "q"⟩ true]
        []) ⟨"Y", "y", "q"⟩) :=
  snapshot_symmetry
    [Event.clientReg "X" true, Event.clientReg "Y" true,
     Event.portReg ⟨"X", "x", "p"⟩ true, Event.portReg ⟨"Y", "y", "q"⟩ true,
     Event.portConnect ⟨"X", "x", "p"⟩ ⟨"Y", "y", "q"⟩ true]
    (by decide) ⟨"X", "x", "p"⟩ ⟨"Y", "y", "q"⟩

end Portman
